import Mathlib

/-!
Verification of the FRETBursts documentation-level specification.

The repository ships only the Sphinx documentation, tutorial notebooks and
packaging scaffolding; the Python modules they document
(fretbursts.burstlib, fretbursts.select_bursts, fretbursts.mfit,
fretbursts.burstlib_ext) are not part of the supplied sources.  Every
operation below is therefore modelled from the specification text, as a
shallow embedding over exact rational arithmetic.
-/

namespace FRETBursts

/-- Modelled from the spec: a burst record from the burst-record set
(start time, duration, per-stream photon counts); implementation of the
burst-search producer is absent from the supplied sources. -/
structure Burst where
  start : ℚ
  width : ℚ
  nd : ℕ
  na : ℕ
  naa : ℕ
  deriving DecidableEq, Repr

/-- Modelled from the spec: per-call keyword configuration of a selection
function (thresholds th1/th2, gamma correction, acceptor-excitation
inclusion flag), as observed in the notebooks. -/
structure SelParams where
  th1 : ℚ
  th2 : ℚ
  gamma1 : ℚ
  add_naa : Bool
  deriving DecidableEq, Repr

/-- Modelled from the spec: a selection function decides, per burst and per
configuration, whether the burst is kept; the boolean mask over a burst
set applies it elementwise. -/
def SelFunc : Type := SelParams → Burst → Bool

/-- Modelled from the spec: the burst-size selection function used in the
notebooks, with gamma correction and optional naa inclusion. -/
def select_bursts_size : SelFunc := fun p b =>
  decide (p.th1 ≤ p.gamma1 * (b.nd : ℚ) + (b.na : ℚ) +
    (if p.add_naa then (b.naa : ℚ) else 0))

/-- Modelled from the spec: a per-channel histogram, bin edges plus
(weighted) bin counts. -/
structure Hist where
  edges : List ℚ
  counts : List ℚ
  deriving DecidableEq, Repr

/-- Modelled from the spec: the two error kinds of the fitting subsystem. -/
inductive FitError where
  | ConfigurationError
  | FitConvergenceError
  deriving DecidableEq, Repr

/-- Modelled from the spec: the MultiFitter state, a sample vector of a
scalar per-burst statistic for each channel, plus the per-channel
histograms once build_histogram has been called. -/
structure MultiFitter where
  data_list : List (List ℚ)
  hist : Option (List Hist)
  deriving DecidableEq, Repr

/-- A fresh MultiFitter, before any call to build_histogram. -/
def MultiFitter.fresh (samples : List (List ℚ)) : MultiFitter :=
  ⟨samples, none⟩

/-- Smallest element of a nonempty sample vector x :: xs. -/
def listMin (x : ℚ) (xs : List ℚ) : ℚ := xs.foldl min x

/-- Largest element of a nonempty sample vector x :: xs. -/
def listMax (x : ℚ) (xs : List ℚ) : ℚ := xs.foldl max x

/-- The sample minimum rounded down to a bin boundary (a multiple of the
bin width). -/
def binStart (w mn : ℚ) : ℚ := w * ⌊mn / w⌋

/-- Number of bins: enough half-open bins of width w, starting at
binStart w mn, to cover mx. -/
def nbins (w mn mx : ℚ) : ℕ := (⌊(mx - binStart w mn) / w⌋ + 1).toNat

/-- Modelled from the spec: the bin edges produced by build_histogram,
monotonically spaced by w from the rounded sample minimum. -/
def histEdges (w mn mx : ℚ) : List ℚ :=
  (List.range (nbins w mn mx + 1)).map fun i : ℕ => binStart w mn + (i : ℚ) * w

/-- The index of the half-open bin a sample falls into. -/
def binIdx (w e0 s : ℚ) : ℤ := ⌊(s - e0) / w⌋

/-- Modelled from the spec: weighted bin counts; each bin collects the
weights of the samples assigned to it. -/
def histCounts (w mn mx : ℚ) (pairs : List (ℚ × ℚ)) : List ℚ :=
  (List.range (nbins w mn mx)).map fun j : ℕ =>
    ((pairs.filter fun sw =>
      decide (binIdx w (binStart w mn) sw.1 = (j : ℤ))).map fun sw => sw.2).sum

/-- Modelled from the spec: the single-channel histogram of
build_histogram, paired sample/weight vectors, half-open bins. -/
def hist1 (w : ℚ) : List ℚ → List ℚ → Hist
  | [], _ => ⟨[], []⟩
  | x :: xs, ws =>
    ⟨histEdges w (listMin x xs) (listMax x xs),
     histCounts w (listMin x xs) (listMax x xs) ((x :: xs).zip ws)⟩

/-- Modelled from the spec: parameter validation of build_histogram; the
optional weights must match the per-channel sample vectors in shape and
be elementwise non-negative. -/
def weightsOk (samples : List (List ℚ)) : Option (List (List ℚ)) → Bool
  | none => true
  | some ws =>
    (ws.length == samples.length) &&
      (samples.zip ws).all fun sw =>
        (sw.2.length == sw.1.length) && sw.2.all fun q => decide (0 ≤ q)

/-- Effective per-channel weights: unit weights when none are given. -/
def effWeights (samples : List (List ℚ)) : Option (List (List ℚ)) → List (List ℚ)
  | none => samples.map fun s => s.map fun _ => (1 : ℚ)
  | some ws => ws

/-- Modelled from the spec: build_histogram(samples_per_channel, bin_width,
weights); validates bin_width > 0 and the weights, fails with
ConfigurationError otherwise, and stores the per-channel histograms in
the fitter. -/
def build_histogram (f : MultiFitter) (w : ℚ) (weights : Option (List (List ℚ))) :
    Except FitError MultiFitter :=
  if 0 < w ∧ weightsOk f.data_list weights = true then
    .ok { f with
      hist := some ((f.data_list.zip (effWeights f.data_list weights)).map
        fun sw => hist1 w sw.1 sw.2) }
  else
    .error .ConfigurationError

/-- Modelled from the spec: the tagged variant of named peak shapes. -/
inductive PeakShape where
  | gaussian
  | asym_gaussian
  deriving DecidableEq, Repr

/-- Modelled from the spec: the parameter names of each peak shape. -/
def PeakShape.paramNames : PeakShape → List String
  | .gaussian => ["center", "sigma", "amplitude"]
  | .asym_gaussian => ["center", "sigma", "amplitude", "sigma_right"]

/-- Modelled from the spec: a component model, a named shape together with
its default initial guesses (positional, matching paramNames). -/
structure Component where
  shape : PeakShape
  init : List ℚ
  deriving DecidableEq, Repr

/-- Modelled from the spec: a composite model is the ordered concatenation
of its component models. -/
abbrev CompositeModel : Type := List Component

/-- Modelled from the spec: model composition (the + operator on models). -/
def compose (a b : CompositeModel) : CompositeModel := a ++ b

/-- Decimal digits of n, most significant last, with a structural fuel so
that the definition evaluates by reduction. -/
def digitsRevAux : ℕ → ℕ → List ℕ
  | 0, _ => []
  | _ + 1, 0 => []
  | fuel + 1, n + 1 => ((n + 1) % 10) :: digitsRevAux fuel ((n + 1) / 10)

/-- The decimal string of a natural number (empty for 0). -/
def natStr (n : ℕ) : String := ⟨(digitsRevAux n n).reverse.map Nat.digitChar⟩

/-- Modelled from the spec: the positional parameter tag; component number
i (0-based) contributes parameters named p1_, p2_, ... -/
def ptag (i : ℕ) (name : String) : String := "p" ++ natStr (i + 1) ++ "_" ++ name

/-- The parameter names of the components of a composite model, starting
from positional index i. -/
def namesFrom : ℕ → CompositeModel → List String
  | _, [] => []
  | i, c :: cs => c.shape.paramNames.map (ptag i) ++ namesFrom (i + 1) cs

/-- Modelled from the spec: the disambiguated parameter names of a
composite model (p1_center, p1_sigma, ..., p2_center, ...). -/
def paramNames (m : CompositeModel) : List String := namesFrom 0 m

/-- Modelled from the spec: the one-Gaussian model factory. -/
def factory_gaussian (center sigma amplitude : ℚ) : CompositeModel :=
  [⟨.gaussian, [center, sigma, amplitude]⟩]

/-- Modelled from the spec: the asymmetric-Gaussian model factory. -/
def factory_asym_gaussian (center sigma amplitude sigma_right : ℚ) : CompositeModel :=
  [⟨.asym_gaussian, [center, sigma, amplitude, sigma_right]⟩]

/-- Modelled from the spec: two-Gaussian preset, evenly spaced centers in
the [0,1] value domain, default sigma, equal amplitudes. -/
def factory_two_gaussians : CompositeModel :=
  compose (factory_gaussian (1/3) (3/100) 1) (factory_gaussian (2/3) (3/100) 1)

/-- Modelled from the spec: three-Gaussian preset. -/
def factory_three_gaussians : CompositeModel :=
  compose (compose (factory_gaussian (1/4) (3/100) 1) (factory_gaussian (1/2) (3/100) 1))
    (factory_gaussian (3/4) (3/100) 1)

/-- A fit-result row: one value per named parameter of the model. -/
abbrev FitRow : Type := List (String × ℚ)

/-- Modelled from the spec: the external nonlinear least-squares solver is
a collaborator; it is any deterministic routine that may report
non-convergence (none). -/
def Solver : Type := CompositeModel → Hist → Option FitRow

/-- Whether a per-channel result row carries an error sentinel. -/
def isErr : Except FitError FitRow → Bool
  | .error _ => true
  | .ok _ => false

/-- Number of non-zero bins of a histogram. -/
def nonzeroBins (h : Hist) : ℕ := (h.counts.filter fun c => decide (c ≠ 0)).length

/-- Modelled from the spec: the per-channel fit; a channel whose histogram
has fewer than 2 non-zero bins, or on which the solver does not
converge, yields a FitConvergenceError sentinel for that channel. -/
def fitChannel (solver : Solver) (m : CompositeModel) (h : Hist) : Except FitError FitRow :=
  if nonzeroBins h < 2 then .error .FitConvergenceError
  else
    match solver m h with
    | none => .error .FitConvergenceError
    | some r => .ok r

/-- Modelled from the spec: fit_histogram; fails with ConfigurationError if
build_histogram has not been called first, otherwise fits every channel
independently against the already-built histograms, collecting
per-channel rows; in strict mode a convergence failure raises for the
whole batch. -/
def fit_histogram (solver : Solver) (strict : Bool) (m : CompositeModel)
    (f : MultiFitter) : Except FitError (List (Except FitError FitRow)) :=
  match f.hist with
  | none => .error .ConfigurationError
  | some hs =>
    let rows := hs.map (fitChannel solver m)
    if strict && rows.any isErr then .error .FitConvergenceError
    else .ok rows

/-- Modelled from the spec: the measurement record (Data); it owns the
per-channel burst-record sets, the gamma correction coefficient, and the
optionally attached E fitter. -/
structure Data where
  channels : List (List Burst)
  gamma : ℚ
  E_fitter : Option MultiFitter
  deriving DecidableEq, Repr

instance : Inhabited Data := ⟨⟨[], 1, none⟩⟩

/-- Modelled from the spec: Sel_mask, the boolean mask a selection function
produces over one channel's burst set. -/
def Sel_mask (f : SelFunc) (p : SelParams) (bursts : List Burst) : List Bool :=
  bursts.map (f p)

/-- Modelled from the spec: Sel_mask_apply, application of a boolean mask
to a burst set. -/
def Sel_mask_apply (bursts : List Burst) (mask : List Bool) : List Burst :=
  ((bursts.zip mask).filter fun bm => bm.2).map fun bm => bm.1

/-- Modelled from the spec: Select_bursts; given a Data object and a
selection function it returns a new Data object containing only the
selected sub-set of bursts of every channel. -/
def Select_bursts (d : Data) (f : SelFunc) (p : SelParams) : Data :=
  { d with channels := d.channels.map fun ch => Sel_mask_apply ch (Sel_mask f p ch) }

/-- Alias for Select_bursts. -/
def Sel (d : Data) (f : SelFunc) (p : SelParams) : Data := Select_bursts d f p

/-- Modelled from the spec: an explicit stand-in for the ambient
interpreter state a hidden global dependency would read (the spec
mandates that no such state influences selection). -/
structure GlobalState where
  tick : ℕ
  env : List (String × ℚ)
  deriving DecidableEq, Repr

/-- Modelled from the spec: selection as executed inside a running session
holding ambient global state g; per the spec it computes from the source
record and the per-call configuration only. -/
def Select_bursts_in (_g : GlobalState) (d : Data) (f : SelFunc) (p : SelParams) : Data :=
  Select_bursts d f p

/-- Modelled from the spec: the session store of measurement records;
running a selection appends the new, independent record derived from the
record at index i, leaving every existing record in place. -/
def selectStore (s : List Data) (i : ℕ) (f : SelFunc) (p : SelParams) : List Data :=
  s ++ [Select_bursts (s.getD i default) f p]

/-- Modelled from the spec: the per-burst FRET efficiency statistic
(gamma-corrected). -/
def burstE (gamma : ℚ) (b : Burst) : ℚ :=
  (b.na : ℚ) / ((b.na : ℚ) + gamma * (b.nd : ℚ))

/-- The MultiFitter a measurement record's E values give rise to. -/
def mkFitter (d : Data) : MultiFitter :=
  ⟨d.channels.map fun ch => ch.map (burstE d.gamma), none⟩

/-- Modelled from the spec: bursts_fitter / burst_fitter, the
fitter-construction helper; it attaches the created MultiFitter to the
measurement record it is given (creates d.E_fitter). -/
def bursts_fitter (d : Data) : Data :=
  { d with E_fitter := some (mkFitter d) }

/-- A concrete measurement record used to instantiate theorems. -/
def sampleData : Data :=
  ⟨[[⟨0, 1, 2, 3, 4⟩, ⟨2, 1, 0, 9, 1⟩], [⟨1, 2, 5, 1, 0⟩]], 1, none⟩

/-- A concrete deterministic solver used to instantiate theorems: it
returns the model's parameter names, each paired with a fixed value. -/
def sampleSolver : Solver := fun m _ => some ((paramNames m).map fun nm => (nm, (1 : ℚ)))

/-- A concrete histogram with two non-zero bins. -/
def sampleHist : Hist := ⟨[0, 1, 2], [1, 2]⟩

/-- A concrete degenerate histogram with a single non-zero bin. -/
def sampleHistDegenerate : Hist := ⟨[0, 1], [1]⟩

/-- A concrete MultiFitter on which build_histogram has been called:
channel 0 is well formed, channel 1 is degenerate. -/
def builtFitter : MultiFitter := ⟨[[1], [0]], some [sampleHist, sampleHistDegenerate]⟩

/-- The shape-and-sign condition the spec imposes on a given weights
vector. -/
def GoodWeights (samples ws : List (List ℚ)) : Prop :=
  List.Forall₂ (fun s wts => wts.length = s.length ∧ ∀ q ∈ wts, 0 ≤ q) samples ws

/-- Concrete component models used to instantiate the composition claim. -/
def gaussA : CompositeModel := factory_gaussian 0 1 1

/-- A second concrete component model. -/
def gaussB : CompositeModel := factory_asym_gaussian 0 1 1 1

/-- A third concrete component model. -/
def gaussC : CompositeModel := factory_gaussian 1 1 1

theorem Sel_mask_apply_mask (f : SelFunc) (p : SelParams) (ch : List Burst) :
    Sel_mask_apply ch (Sel_mask f p ch) = ch.filter (f p) := by
  induction ch with
  | nil => rfl
  | cons b ch ih =>
    simp only [Sel_mask, Sel_mask_apply, List.map_cons, List.zip_cons_cons,
      List.filter_cons] at ih ⊢
    cases hfb : f p b <;> simp [hfb, ← ih]

theorem Sel_mask_apply_sublist (ch : List Burst) (mask : List Bool) :
    List.Sublist (Sel_mask_apply ch mask) ch := by
  induction ch generalizing mask with
  | nil => simp [Sel_mask_apply]
  | cons b ch ih =>
    cases mask with
    | nil => simp [Sel_mask_apply]
    | cons m mask =>
      cases m
      · simpa [Sel_mask_apply] using (ih mask).cons b
      · simpa [Sel_mask_apply] using (ih mask).cons₂ b

theorem forall₂_map_self {α β : Type} (R : β → α → Prop) (g : α → β) (l : List α)
    (h : ∀ x, R (g x) x) : List.Forall₂ R (l.map g) l := by
  induction l with
  | nil => simp
  | cons a l ih => simpa using List.Forall₂.cons (h a) ih

/-- C2: selection is referentially transparent: run under any two ambient
global states, Select_bursts applied to the same source record, selection
function and parameters yields records with the same burst subset, and
that subset is a function of the record, predicate and parameters only. -/
theorem Select_bursts_referentially_transparent :
    ∀ (g g' : GlobalState) (d : Data) (f : SelFunc) (p : SelParams),
      Select_bursts_in g d f p = Select_bursts_in g' d f p ∧
      (Select_bursts_in g d f p).channels =
        d.channels.map fun ch => List.filter (f p) ch := by
  intro g g' d f p
  exact ⟨rfl, by simp [Select_bursts_in, Select_bursts, Sel_mask_apply_mask]⟩

/-- C4: selection is idempotent: selecting twice with the same selection
function and parameters yields the same record (hence the same burst
subset) as selecting once. -/
theorem Select_bursts_idempotent :
    ∀ (d : Data) (f : SelFunc) (p : SelParams),
      Select_bursts (Select_bursts d f p) f p = Select_bursts d f p := by
  intro d f p
  cases d with
  | mk channels gamma efit =>
    simp [Select_bursts, Sel_mask_apply_mask, List.map_map, Function.comp_def,
      List.filter_filter]

/-- C5: a selection operation appends a new, independent record containing
only the selected burst subset to the session store and leaves every
existing record, in particular the source record, unchanged. -/
theorem Select_bursts_frame :
    ∀ (s : List Data) (i : ℕ) (f : SelFunc) (p : SelParams),
      (∀ j : Fin s.length, (selectStore s i f p).getD j.val default = s.getD j.val default) ∧
      (selectStore s i f p).length = s.length + 1 ∧
      (selectStore s i f p).getD s.length default = Select_bursts (s.getD i default) f p ∧
      (Select_bursts (s.getD i default) f p).channels =
        (s.getD i default).channels.map fun ch => List.filter (f p) ch := by
  intro s i f p
  refine ⟨fun j => ?_, by simp [selectStore], ?_, ?_⟩
  · simp [selectStore, List.getD, List.getElem?_append, j.isLt]
  · simp [selectStore, List.getD, List.getElem?_append_right]
  · simp [Select_bursts, Sel_mask_apply_mask]

/-- C9: selection is computed as a boolean mask over the source burst set
(Sel_mask producing it, Sel_mask_apply applying it); the resulting burst
set of every channel is a subsequence of the source channel, so relative
order is preserved and no burst occurs more often than in the source. -/
theorem Select_bursts_mask_sublist :
    ∀ (d : Data) (f : SelFunc) (p : SelParams),
      (Select_bursts d f p).channels =
        d.channels.map (fun ch => Sel_mask_apply ch (Sel_mask f p ch)) ∧
      List.Forall₂ List.Sublist (Select_bursts d f p).channels d.channels ∧
      (∀ ch : List Burst, ∀ mask : List Bool, List.Sublist (Sel_mask_apply ch mask) ch) ∧
      (∀ ch : List Burst, ∀ b : Burst,
        (Sel_mask_apply ch (Sel_mask f p ch)).count b ≤ ch.count b) := by
  intro d f p
  refine ⟨rfl, ?_, Sel_mask_apply_sublist, fun ch b => ?_⟩
  · exact forall₂_map_self _ _ _ fun ch => Sel_mask_apply_sublist ch (Sel_mask f p ch)
  · exact (Sel_mask_apply_sublist ch (Sel_mask f p ch)).count_le b

/-- C10: the fitter-construction helper attaches the created MultiFitter
to the measurement record it is given (creates d.E_fitter), leaving the
other fields alone; on a record without a fitter it does not leave the
record unchanged. -/
theorem bursts_fitter_attaches :
    ∀ d : Data,
      (bursts_fitter d).E_fitter = some (mkFitter d) ∧
      (bursts_fitter d).channels = d.channels ∧
      (bursts_fitter d).gamma = d.gamma ∧
      (d.E_fitter = none → bursts_fitter d ≠ d) := by
  intro d
  refine ⟨rfl, rfl, rfl, fun hnone heq => ?_⟩
  have := congrArg Data.E_fitter heq
  rw [hnone] at this
  simp [bursts_fitter] at this

theorem bursts_fitter_attaches_witness :
    (bursts_fitter sampleData).E_fitter = some (mkFitter sampleData) ∧
    (bursts_fitter sampleData).channels = sampleData.channels ∧
    (bursts_fitter sampleData).gamma = sampleData.gamma ∧
    bursts_fitter sampleData ≠ sampleData := by
  have h := bursts_fitter_attaches sampleData
  exact ⟨h.1, h.2.1, h.2.2.1, h.2.2.2 rfl⟩

/-- C7: fit_histogram fails with ConfigurationError exactly when
build_histogram has not been called on the fitter (its histogram store is
still empty, as on a fresh fitter); once the histograms are built, the
model is evaluated channel by channel against them. -/
theorem fit_histogram_requires_built_histogram :
    ∀ (solver : Solver) (strict : Bool) (m : CompositeModel) (f : MultiFitter),
      (fit_histogram solver strict m f = .error .ConfigurationError ↔ f.hist = none) ∧
      (∀ samples, fit_histogram solver strict m (MultiFitter.fresh samples) =
        .error .ConfigurationError) ∧
      (∀ hs, f.hist = some hs →
        fit_histogram solver strict m f =
          if strict && (hs.map (fitChannel solver m)).any isErr then
            .error .FitConvergenceError
          else .ok (hs.map (fitChannel solver m))) := by
  intro solver strict m f
  refine ⟨?_, fun samples => rfl, fun hs hf => ?_⟩
  · cases hhist : f.hist with
    | none => simp [fit_histogram, hhist]
    | some hs =>
      simp only [fit_histogram, hhist]
      constructor
      · intro h
        by_cases hb : (strict && (hs.map (fitChannel solver m)).any isErr) = true <;>
          simp [hb] at h
      · intro h
        exact absurd h (by simp)
  · simp [fit_histogram, hf]

theorem fit_histogram_requires_built_histogram_witness :
    (fit_histogram sampleSolver false factory_two_gaussians (MultiFitter.fresh [[1]]) =
      .error .ConfigurationError ↔ (MultiFitter.fresh [[1]]).hist = none) ∧
    builtFitter.hist = some [sampleHist, sampleHistDegenerate] ∧
    fit_histogram sampleSolver false factory_two_gaussians builtFitter =
      (if false && (([sampleHist, sampleHistDegenerate].map
          (fitChannel sampleSolver factory_two_gaussians)).any isErr) then
        .error .FitConvergenceError
      else .ok ([sampleHist, sampleHistDegenerate].map
        (fitChannel sampleSolver factory_two_gaussians))) :=
  ⟨(fit_histogram_requires_built_histogram sampleSolver false factory_two_gaussians
      (MultiFitter.fresh [[1]])).1,
   rfl,
   (fit_histogram_requires_built_histogram sampleSolver false factory_two_gaussians
      builtFitter).2.2 [sampleHist, sampleHistDegenerate] rfl⟩

/-- C3: with histograms built, fitting is per channel: in non-strict mode
the batch never raises and returns one result row per channel, each row
a function of that channel's histogram alone; a channel with fewer than
2 non-zero bins gets a FitConvergenceError sentinel in its own row only,
and the batch raises only when the caller requests strict mode. -/
theorem fit_histogram_per_channel_isolation :
    ∀ (solver : Solver) (m : CompositeModel) (f : MultiFitter) (hs : List Hist),
      f.hist = some hs →
      (∀ strict e, fit_histogram solver strict m f = .error e → strict = true) ∧
      fit_histogram solver false m f = .ok (hs.map (fitChannel solver m)) ∧
      (∀ i : Fin hs.length,
        (hs.map (fitChannel solver m))[i.val]? =
          some (fitChannel solver m (hs.get i))) ∧
      (∀ i : Fin hs.length, nonzeroBins (hs.get i) < 2 →
        (hs.map (fitChannel solver m))[i.val]? =
          some (.error .FitConvergenceError)) := by
  intro solver m f hs hf
  have hget : ∀ i : Fin hs.length,
      (hs.map (fitChannel solver m))[i.val]? = some (fitChannel solver m (hs.get i)) := by
    intro i
    simp [List.getElem?_map, List.getElem?_eq_getElem i.isLt]
  refine ⟨fun strict e h => ?_, ?_, hget, fun i hi => ?_⟩
  · cases strict with
    | false => simp [fit_histogram, hf] at h
    | true => rfl
  · simp [fit_histogram, hf]
  · rw [hget i, fitChannel, if_pos hi]

theorem fit_histogram_per_channel_isolation_witness :
    builtFitter.hist = some [sampleHist, sampleHistDegenerate] ∧
    fit_histogram sampleSolver false factory_two_gaussians builtFitter =
      .ok ([sampleHist, sampleHistDegenerate].map
        (fitChannel sampleSolver factory_two_gaussians)) ∧
    nonzeroBins ([sampleHist, sampleHistDegenerate].get ⟨1, by norm_num⟩) < 2 ∧
    ([sampleHist, sampleHistDegenerate].map
      (fitChannel sampleSolver factory_two_gaussians))[1]? =
        some (.error .FitConvergenceError) := by
  have h := fit_histogram_per_channel_isolation sampleSolver factory_two_gaussians
    builtFitter [sampleHist, sampleHistDegenerate] rfl
  have hdeg : nonzeroBins ([sampleHist, sampleHistDegenerate].get ⟨1, by norm_num⟩) < 2 := by
    decide
  exact ⟨rfl, h.2.1, hdeg, h.2.2.2 ⟨1, by norm_num⟩ hdeg⟩

theorem weightsOk_iff (samples ws : List (List ℚ)) :
    weightsOk samples (some ws) = true ↔ GoodWeights samples ws := by
  rw [GoodWeights, List.forall₂_iff_zip]
  simp only [weightsOk, Bool.and_eq_true, beq_iff_eq, List.all_eq_true,
    decide_eq_true_eq]
  constructor
  · rintro ⟨hlen, hall⟩
    refine ⟨hlen.symm, ?_⟩
    intro a b hab
    exact hall (a, b) hab
  · rintro ⟨hlen, hall⟩
    refine ⟨hlen.symm, ?_⟩
    intro sw hsw
    exact @hall sw.1 sw.2 (by simpa using hsw)

/-- C6: build_histogram fails with ConfigurationError exactly when its
parameters are invalid — the bin width must be positive and a given
weights vector must match the sample vectors in shape and be elementwise
non-negative; the error surfaces immediately as the call's result, and
under these preconditions the call succeeds and stores histograms. -/
theorem build_histogram_validation :
    ∀ (f : MultiFitter) (w : ℚ) (weights : Option (List (List ℚ))),
      (build_histogram f w weights = .error .ConfigurationError ↔
        ¬(0 < w ∧ ∀ ws, weights = some ws → GoodWeights f.data_list ws)) ∧
      (0 < w → (∀ ws, weights = some ws → GoodWeights f.data_list ws) →
        ∃ f', build_histogram f w weights = .ok f' ∧
          f'.data_list = f.data_list ∧ f'.hist ≠ none) := by
  intro f w weights
  have hvalid : (0 < w ∧ weightsOk f.data_list weights = true) ↔
      (0 < w ∧ ∀ ws, weights = some ws → GoodWeights f.data_list ws) := by
    cases weights with
    | none => simp [weightsOk]
    | some ws => simp [weightsOk_iff]
  constructor
  · rw [build_histogram]
    by_cases h : 0 < w ∧ weightsOk f.data_list weights = true
    · rw [if_pos h]
      exact iff_of_false (by simp) (not_not_intro (hvalid.mp h))
    · rw [if_neg h]
      exact iff_of_true rfl (hvalid.not.mp h)
  · intro hw hws
    rw [build_histogram, if_pos (hvalid.mpr ⟨hw, hws⟩)]
    exact ⟨_, rfl, rfl, by simp⟩

theorem build_histogram_validation_witness :
    (0 : ℚ) < 1 ∧
    (∀ ws, (some [[1, 2], [3]] : Option (List (List ℚ))) = some ws →
      GoodWeights (MultiFitter.fresh [[0, 2], [5]]).data_list ws) ∧
    ∃ f', build_histogram (MultiFitter.fresh [[0, 2], [5]]) 1 (some [[1, 2], [3]]) = .ok f' ∧
      f'.data_list = (MultiFitter.fresh [[0, 2], [5]]).data_list ∧ f'.hist ≠ none := by
  have hw : (0 : ℚ) < 1 := by norm_num
  have hws : ∀ ws, (some [[1, 2], [3]] : Option (List (List ℚ))) = some ws →
      GoodWeights (MultiFitter.fresh [[0, 2], [5]]).data_list ws := by
    intro ws hws2
    cases Option.some.inj hws2
    show GoodWeights [[0, 2], [5]] [[1, 2], [3]]
    refine List.Forall₂.cons ⟨rfl, ?_⟩ (List.Forall₂.cons ⟨rfl, ?_⟩ List.Forall₂.nil)
    · intro q hq
      simp only [List.mem_cons, List.not_mem_nil, or_false] at hq
      rcases hq with rfl | rfl <;> norm_num
    · intro q hq
      simp only [List.mem_cons, List.not_mem_nil, or_false] at hq
      subst hq
      norm_num
  exact ⟨hw, hws,
    (build_histogram_validation (MultiFitter.fresh [[0, 2], [5]]) 1 (some [[1, 2], [3]])).2
      hw hws⟩

theorem foldl_min_le_init (xs : List ℚ) (z : ℚ) : xs.foldl min z ≤ z := by
  induction xs generalizing z with
  | nil => exact le_refl z
  | cons y ys ih => exact le_trans (ih (min z y)) (min_le_left z y)

theorem init_le_foldl_max (xs : List ℚ) (z : ℚ) : z ≤ xs.foldl max z := by
  induction xs generalizing z with
  | nil => exact le_refl z
  | cons y ys ih => exact le_trans (le_max_left z y) (ih (max z y))

theorem listMin_le_listMax (x : ℚ) (xs : List ℚ) : listMin x xs ≤ listMax x xs :=
  le_trans (foldl_min_le_init xs x) (init_le_foldl_max xs x)

theorem binStart_le {w : ℚ} (hw : 0 < w) (mn : ℚ) : binStart w mn ≤ mn := by
  rw [binStart]
  have h1 : (⌊mn / w⌋ : ℚ) ≤ mn / w := Int.floor_le (mn / w)
  calc w * (⌊mn / w⌋ : ℚ) ≤ w * (mn / w) := mul_le_mul_of_nonneg_left h1 hw.le
    _ = mn := by rw [mul_comm, div_mul_cancel₀ mn hw.ne']

theorem lt_binStart_add {w : ℚ} (hw : 0 < w) (mn : ℚ) : mn < binStart w mn + w := by
  rw [binStart]
  have h1 : mn / w < (⌊mn / w⌋ : ℚ) + 1 := Int.lt_floor_add_one (mn / w)
  rw [div_lt_iff₀ hw] at h1
  ring_nf at h1 ⊢
  linarith

theorem binIdx_eq_iff {w : ℚ} (hw : 0 < w) (e0 s : ℚ) (j : ℤ) :
    binIdx w e0 s = j ↔
      e0 + (j : ℚ) * w ≤ s ∧ s < e0 + ((j : ℚ) + 1) * w := by
  rw [binIdx, Int.floor_eq_iff]
  constructor
  · rintro ⟨h1, h2⟩
    rw [le_div_iff₀ hw] at h1
    rw [div_lt_iff₀ hw] at h2
    constructor <;> linarith
  · rintro ⟨h1, h2⟩
    rw [le_div_iff₀ hw, div_lt_iff₀ hw]
    constructor <;> linarith

theorem nbins_cast {w mn mx : ℚ} (hw : 0 < w) (hmn : mn ≤ mx) :
    (nbins w mn mx : ℤ) = ⌊(mx - binStart w mn) / w⌋ + 1 := by
  rw [nbins]
  have h0 : 0 ≤ (mx - binStart w mn) / w :=
    div_nonneg (by linarith [binStart_le hw mn]) hw.le
  have := Int.floor_nonneg.mpr h0
  omega

theorem histEdges_chain' {w : ℚ} (hw : 0 < w) (mn mx : ℚ) :
    List.Chain' (· < ·) (histEdges w mn mx) := by
  rw [histEdges, List.chain'_map, List.chain'_range_succ]
  intro i _
  push_cast
  have h : ((i : ℚ)) * w < ((i : ℚ) + 1) * w := by nlinarith [hw]
  linarith

theorem histEdges_head (w mn mx : ℚ) :
    (histEdges w mn mx).head? = some (binStart w mn) := by
  rw [histEdges, List.head?_map, List.range_succ_eq_map]
  simp

theorem histEdges_last (w mn mx : ℚ) :
    (histEdges w mn mx).getLast? =
      some (binStart w mn + (nbins w mn mx : ℚ) * w) := by
  rw [histEdges, List.getLast?_map, List.range_succ, List.getLast?_concat]
  simp

theorem nbins_left_le {w mn mx : ℚ} (hw : 0 < w) (hmn : mn ≤ mx) :
    binStart w mn + ((nbins w mn mx : ℚ) - 1) * w ≤ mx := by
  have hfl : (⌊(mx - binStart w mn) / w⌋ : ℚ) ≤ (mx - binStart w mn) / w :=
    Int.floor_le _
  have h2 : (⌊(mx - binStart w mn) / w⌋ : ℚ) * w ≤ mx - binStart w mn := by
    calc (⌊(mx - binStart w mn) / w⌋ : ℚ) * w
        ≤ ((mx - binStart w mn) / w) * w := mul_le_mul_of_nonneg_right hfl hw.le
      _ = mx - binStart w mn := div_mul_cancel₀ _ hw.ne'
  have h3 : ((nbins w mn mx : ℚ)) - 1 = (⌊(mx - binStart w mn) / w⌋ : ℚ) := by
    have h4 := congrArg (fun z : ℤ => (z : ℚ)) (nbins_cast hw hmn)
    push_cast at h4
    linarith
  rw [h3]
  linarith

theorem lt_nbins_right {w mn mx : ℚ} (hw : 0 < w) (hmn : mn ≤ mx) :
    mx < binStart w mn + (nbins w mn mx : ℚ) * w := by
  have h1 : (mx - binStart w mn) / w < (⌊(mx - binStart w mn) / w⌋ : ℚ) + 1 :=
    Int.lt_floor_add_one _
  rw [div_lt_iff₀ hw] at h1
  have h3 : ((nbins w mn mx : ℚ)) = (⌊(mx - binStart w mn) / w⌋ : ℚ) + 1 := by
    have h4 := congrArg (fun z : ℤ => (z : ℚ)) (nbins_cast hw hmn)
    push_cast at h4
    linarith
  rw [h3]
  ring_nf at h1 ⊢
  linarith

theorem histCounts_getElem {w mn mx : ℚ} (hw : 0 < w) (pairs : List (ℚ × ℚ))
    (j : ℕ) (hj : j < nbins w mn mx) :
    (histCounts w mn mx pairs)[j]? =
      some (((pairs.filter fun sw =>
        decide (binStart w mn + (j : ℚ) * w ≤ sw.1 ∧
          sw.1 < binStart w mn + ((j : ℚ) + 1) * w)).map fun sw => sw.2).sum) := by
  rw [histCounts, List.getElem?_map, List.getElem?_range hj]
  have hpt : ∀ sw : ℚ × ℚ, sw ∈ pairs →
      (decide (binIdx w (binStart w mn) sw.1 = (j : ℤ)) =
       decide (binStart w mn + (j : ℚ) * w ≤ sw.1 ∧
         sw.1 < binStart w mn + ((j : ℚ) + 1) * w)) := by
    intro sw _
    apply decide_eq_decide.mpr
    have h := binIdx_eq_iff hw (binStart w mn) sw.1 (j : ℤ)
    push_cast at h
    exact h
  simp only [Option.map_some']
  rw [List.filter_congr hpt]

/-- C8: for every bin width w > 0 and every non-empty sample vector, the
bin edges built by build_histogram are strictly increasing, start at the
sample minimum rounded down to a bin boundary, end at the first bin
boundary past the sample maximum, and each bin's count collects exactly
the weights of the samples in the half-open interval from edge_j
(inclusive) to edge_j+1 (exclusive). -/
theorem build_histogram_edges_spec :
    ∀ (w x : ℚ) (xs ws : List ℚ), 0 < w →
      List.Chain' (· < ·) (hist1 w (x :: xs) ws).edges ∧
      (hist1 w (x :: xs) ws).edges.head? = some (binStart w (listMin x xs)) ∧
      binStart w (listMin x xs) ≤ listMin x xs ∧
      listMin x xs < binStart w (listMin x xs) + w ∧
      (hist1 w (x :: xs) ws).edges.getLast? =
        some (binStart w (listMin x xs) +
          (nbins w (listMin x xs) (listMax x xs) : ℚ) * w) ∧
      binStart w (listMin x xs) +
          ((nbins w (listMin x xs) (listMax x xs) : ℚ) - 1) * w ≤ listMax x xs ∧
      listMax x xs < binStart w (listMin x xs) +
          (nbins w (listMin x xs) (listMax x xs) : ℚ) * w ∧
      (∀ j : Fin (nbins w (listMin x xs) (listMax x xs)),
        (hist1 w (x :: xs) ws).counts[j.val]? =
          some (((((x :: xs).zip ws).filter fun sw =>
            decide (binStart w (listMin x xs) + (j.val : ℚ) * w ≤ sw.1 ∧
              sw.1 < binStart w (listMin x xs) + ((j.val : ℚ) + 1) * w)).map
                fun sw => sw.2).sum)) := by
  intro w x xs ws hw
  have hmm := listMin_le_listMax x xs
  have hedges : (hist1 w (x :: xs) ws).edges =
      histEdges w (listMin x xs) (listMax x xs) := rfl
  have hcounts : (hist1 w (x :: xs) ws).counts =
      histCounts w (listMin x xs) (listMax x xs) ((x :: xs).zip ws) := rfl
  refine ⟨?_, ?_, binStart_le hw _, lt_binStart_add hw _, ?_,
    nbins_left_le hw hmm, lt_nbins_right hw hmm, ?_⟩
  · rw [hedges]
    exact histEdges_chain' hw _ _
  · rw [hedges]
    exact histEdges_head _ _ _
  · rw [hedges]
    exact histEdges_last _ _ _
  · intro j
    rw [hcounts]
    exact histCounts_getElem hw _ j.val j.isLt

theorem build_histogram_edges_spec_witness :
    (0 : ℚ) < 1 ∧
    (List.Chain' (· < ·) (hist1 1 (0 :: [2]) [1, 1]).edges ∧
      (hist1 1 (0 :: [2]) [1, 1]).edges.head? = some (binStart 1 (listMin 0 [2])) ∧
      binStart 1 (listMin 0 [2]) ≤ listMin 0 [2] ∧
      listMin 0 [2] < binStart 1 (listMin 0 [2]) + 1 ∧
      (hist1 1 (0 :: [2]) [1, 1]).edges.getLast? =
        some (binStart 1 (listMin 0 [2]) +
          (nbins 1 (listMin 0 [2]) (listMax 0 [2]) : ℚ) * 1) ∧
      binStart 1 (listMin 0 [2]) +
          ((nbins 1 (listMin 0 [2]) (listMax 0 [2]) : ℚ) - 1) * 1 ≤ listMax 0 [2] ∧
      listMax 0 [2] < binStart 1 (listMin 0 [2]) +
          (nbins 1 (listMin 0 [2]) (listMax 0 [2]) : ℚ) * 1 ∧
      (∀ j : Fin (nbins 1 (listMin 0 [2]) (listMax 0 [2])),
        (hist1 1 (0 :: [2]) [1, 1]).counts[j.val]? =
          some ((((((0 : ℚ) :: [2]).zip [1, 1]).filter fun sw =>
            decide (binStart 1 (listMin 0 [2]) + (j.val : ℚ) * 1 ≤ sw.1 ∧
              sw.1 < binStart 1 (listMin 0 [2]) + ((j.val : ℚ) + 1) * 1)).map
                fun sw => sw.2).sum))) :=
  ⟨by norm_num, build_histogram_edges_spec 1 0 [2] [1, 1] (by norm_num)⟩

theorem digitsRevAux_eq (fuel n : ℕ) (h : n ≤ fuel) :
    digitsRevAux fuel n = Nat.digits 10 n := by
  induction fuel generalizing n with
  | zero =>
    interval_cases n
    simp [digitsRevAux]
  | succ fuel ih =>
    cases n with
    | zero => simp [digitsRevAux]
    | succ n =>
      rw [digitsRevAux, Nat.digits_def' (by norm_num : (1 : ℕ) < 10) (Nat.succ_pos n),
        ih _ (by omega)]

theorem digitChar_inj {a b : ℕ} (ha : a < 10) (hb : b < 10)
    (h : Nat.digitChar a = Nat.digitChar b) : a = b := by
  interval_cases a <;> interval_cases b <;> revert h <;> decide

theorem digitChar_ne_underscore {a : ℕ} (ha : a < 10) : Nat.digitChar a ≠ '_' := by
  interval_cases a <;> decide

theorem map_digitChar_inj :
    ∀ l₁ l₂ : List ℕ, (∀ y ∈ l₁, y < 10) → (∀ y ∈ l₂, y < 10) →
      l₁.map Nat.digitChar = l₂.map Nat.digitChar → l₁ = l₂ := by
  intro l₁
  induction l₁ with
  | nil =>
    intro l₂ _ _ h
    cases l₂ with
    | nil => rfl
    | cons b bs => simp at h
  | cons a as ih =>
    intro l₂ h₁ h₂ h
    cases l₂ with
    | nil => simp at h
    | cons b bs =>
      simp only [List.map_cons, List.cons.injEq] at h
      have hab := digitChar_inj (h₁ a (by simp)) (h₂ b (by simp)) h.1
      have htail := ih bs (fun y hy => h₁ y (by simp [hy]))
        (fun y hy => h₂ y (by simp [hy])) h.2
      rw [hab, htail]

theorem natStr_inj {a b : ℕ} (h : natStr a = natStr b) : a = b := by
  have h3 : (digitsRevAux a a).reverse.map Nat.digitChar =
      (digitsRevAux b b).reverse.map Nat.digitChar := congrArg String.data h
  rw [digitsRevAux_eq a a le_rfl, digitsRevAux_eq b b le_rfl] at h3
  have h10 : ∀ m : ℕ, ∀ y ∈ (Nat.digits 10 m).reverse, y < 10 := by
    intro m y hy
    exact Nat.digits_lt_base (by norm_num) (List.mem_reverse.mp hy)
  have hrev := map_digitChar_inj _ _ (h10 a) (h10 b) h3
  exact Nat.digits.injective 10 (List.reverse_injective hrev)

theorem natStr_no_underscore (n : ℕ) : '_' ∉ (natStr n).data := by
  show '_' ∉ (digitsRevAux n n).reverse.map Nat.digitChar
  rw [digitsRevAux_eq n n le_rfl]
  intro hmem
  rcases List.mem_map.mp hmem with ⟨d, hd, hdc⟩
  exact digitChar_ne_underscore
    (Nat.digits_lt_base (by norm_num) (List.mem_reverse.mp hd)) hdc

theorem append_underscore_split :
    ∀ xs ys a b : List Char, '_' ∉ xs → '_' ∉ ys →
      xs ++ '_' :: a = ys ++ '_' :: b → xs = ys ∧ a = b := by
  intro xs
  induction xs with
  | nil =>
    intro ys a b _ hy h
    cases ys with
    | nil => simpa using h
    | cons y yt =>
      simp only [List.nil_append, List.cons_append, List.cons.injEq] at h
      exact absurd (by rw [h.1]; exact List.mem_cons_self _ _) hy
  | cons xh xt ih =>
    intro ys a b hx hy h
    cases ys with
    | nil =>
      simp only [List.cons_append, List.nil_append, List.cons.injEq] at h
      exact absurd (by rw [← h.1]; exact List.mem_cons_self _ _) hx
    | cons yh yt =>
      simp only [List.cons_append, List.cons.injEq] at h
      obtain ⟨hxy, hab⟩ := ih yt a b (fun hc => hx (List.mem_cons_of_mem _ hc))
        (fun hc => hy (List.mem_cons_of_mem _ hc)) h.2
      exact ⟨by rw [h.1, hxy], hab⟩

theorem string_data_ext {s t : String} (h : s.data = t.data) : s = t := by
  cases s
  cases t
  exact congrArg String.mk h

theorem ptag_inj {i j : ℕ} {a b : String} (h : ptag i a = ptag j b) :
    i = j ∧ a = b := by
  have hd := congrArg String.data h
  simp only [ptag, String.data_append] at hd
  simp only [List.append_assoc, List.singleton_append, List.cons_append,
    List.cons.injEq, List.nil_append] at hd
  obtain ⟨hmid, htail⟩ := append_underscore_split _ _ _ _
    (natStr_no_underscore (i + 1)) (natStr_no_underscore (j + 1)) hd.2
  have hij : i + 1 = j + 1 := natStr_inj (string_data_ext hmid)
  exact ⟨by omega, string_data_ext htail⟩

theorem mem_namesFrom :
    ∀ (m : CompositeModel) (k : ℕ) (x : String),
      x ∈ namesFrom k m → ∃ j, k ≤ j ∧ ∃ nm, x = ptag j nm := by
  intro m
  induction m with
  | nil =>
    intro k x hx
    simp [namesFrom] at hx
  | cons c cs ih =>
    intro k x hx
    rw [namesFrom] at hx
    rcases List.mem_append.mp hx with hx | hx
    · rcases List.mem_map.mp hx with ⟨nm, _, rfl⟩
      exact ⟨k, le_rfl, nm, rfl⟩
    · rcases ih (k + 1) x hx with ⟨j, hj, nm, hnm⟩
      exact ⟨j, by omega, nm, hnm⟩

theorem shape_paramNames_nodup (s : PeakShape) : s.paramNames.Nodup := by
  cases s <;> decide

theorem namesFrom_nodup : ∀ (m : CompositeModel) (k : ℕ), (namesFrom k m).Nodup := by
  intro m
  induction m with
  | nil =>
    intro k
    simp [namesFrom]
  | cons c cs ih =>
    intro k
    rw [namesFrom]
    refine List.Nodup.append ?_ (ih (k + 1)) ?_
    · have hinj : Function.Injective (ptag k) := by
        intro x y hxy
        exact (ptag_inj hxy).2
      exact (shape_paramNames_nodup c.shape).map hinj
    · intro x hx₁ hx₂
      rcases List.mem_map.mp hx₁ with ⟨nm, _, rfl⟩
      rcases mem_namesFrom cs (k + 1) _ hx₂ with ⟨j, hj, nm', hnm'⟩
      have hk := (ptag_inj hnm').1
      omega

/-- C1: model composition under addition is associative: the composites
(A+B)+C and A+(B+C) are equal, so fitting either on the same data yields
identical parameter estimates for any solver; composition disambiguates
parameter names by the positional tags p1_, p2_, ... and the composite's
parameter names are unique. -/
theorem compose_assoc_and_unique_names :
    ∀ A B C : CompositeModel,
      compose (compose A B) C = compose A (compose B C) ∧
      (∀ (solver : Solver) (strict : Bool) (f : MultiFitter),
        fit_histogram solver strict (compose (compose A B) C) f =
          fit_histogram solver strict (compose A (compose B C)) f) ∧
      (paramNames (compose (compose A B) C)).Nodup ∧
      (∀ x ∈ paramNames (compose (compose A B) C), ∃ j nm, x = ptag j nm) := by
  intro A B C
  have hassoc : compose (compose A B) C = compose A (compose B C) :=
    List.append_assoc A B C
  refine ⟨hassoc, fun solver strict f => by rw [hassoc], namesFrom_nodup _ 0, ?_⟩
  intro x hx
  rcases mem_namesFrom _ 0 x hx with ⟨j, _, nm, hnm⟩
  exact ⟨j, nm, hnm⟩

theorem compose_assoc_and_unique_names_witness :
    compose (compose gaussA gaussB) gaussC = compose gaussA (compose gaussB gaussC) ∧
    fit_histogram sampleSolver false (compose (compose gaussA gaussB) gaussC) builtFitter =
      fit_histogram sampleSolver false (compose gaussA (compose gaussB gaussC)) builtFitter ∧
    (paramNames (compose (compose gaussA gaussB) gaussC)).Nodup ∧
    "p1_center" ∈ paramNames (compose (compose gaussA gaussB) gaussC) ∧
    (∃ j nm, ("p1_center" : String) = ptag j nm) := by
  have h := compose_assoc_and_unique_names gaussA gaussB gaussC
  have hmem : "p1_center" ∈ paramNames (compose (compose gaussA gaussB) gaussC) := by
    decide
  exact ⟨h.1, h.2.1 sampleSolver false builtFitter, h.2.2.1, hmem, h.2.2.2 _ hmem⟩

end FRETBursts
